import Mathlib

/-!
# Verification of the UK fund performance persistence pipeline

Shallow embedding of `src/analysis.py` (pandas-based momentum persistence
analysis).  Prices are modelled as rows of optional rationals (an absent cell
is `none`, a pandas `NaN`), dates as naturals, instruments as column indices.

The quantile bucketing step embeds `pd.qcut(xs, 3, labels=False,
duplicates='drop')`:
* bin edges are the linearly interpolated quantiles of the data at
  0, 1/3, 2/3, 1;
* duplicate edges are dropped (the edge list is monotone, so dropping
  adjacent duplicates agrees with `np.unique` on it);
* each value receives the index of its (right-closed) bin via a
  left-biased binary search, the minimum is folded into the lowest bin
  (`include_lowest=True`), and values falling outside every bin become
  missing (this happens exactly when all values are equal, where the edge
  list collapses to a single point).
-/

/-- Floor of a nonnegative rational as a natural number. -/
def ratFloorNat (q : ℚ) : ℕ := q.num.toNat / q.den

/-- Index of the lower interpolation point for the quantile at probability
`p` of a sorted list `s`: `⌊p * (n - 1)⌋`, clamped to the last index. -/
def interpIdx (s : List ℚ) (p : ℚ) : ℕ :=
  min (ratFloorNat (p * ((s.length : ℚ) - 1))) (s.length - 1)

/-- Linearly interpolated quantile of an (already sorted) list `s` at
probability `p`, as computed by `numpy.quantile` with the default linear
interpolation: with `h = p * (n - 1)` and `i = ⌊h⌋` (clamped to the last
index), the result is `s[i] + (h - i) * (s[i+1] - s[i])` (the upper point
falling back to `s[i]` when out of range, where `h - i = 0` anyway). -/
def quantileAt (s : List ℚ) (p : ℚ) : ℚ :=
  s.getD (interpIdx s p) 0 +
    (p * ((s.length : ℚ) - 1) - (interpIdx s p : ℚ)) *
      (s.getD (interpIdx s p + 1) (s.getD (interpIdx s p) 0) - s.getD (interpIdx s p) 0)

/-- Remove adjacent duplicates.  On the monotone quantile edge list this
coincides with `np.unique` / `pandas.core.algorithms.unique` as used by
`qcut(duplicates='drop')`. -/
def dedupAdj : List ℚ → List ℚ
  | [] => []
  | [a] => [a]
  | a :: b :: t => if a = b then dedupAdj (b :: t) else a :: dedupAdj (b :: t)

/-- The data column sorted ascending (ties keep input order; only the values
matter here). -/
def sortedOf (xs : List ℚ) : List ℚ := xs.insertionSort (· ≤ ·)

/-- The (possibly deduplicated) bin edges `pd.qcut(xs, 3, duplicates='drop')`
works with: quantiles of `xs` at 0, 1/3, 2/3, 1 with duplicate edges
dropped. -/
def qcutBins (xs : List ℚ) : List ℚ :=
  dedupAdj [quantileAt (sortedOf xs) 0, quantileAt (sortedOf xs) (1/3),
            quantileAt (sortedOf xs) (2/3), quantileAt (sortedOf xs) 1]

/-- `searchsorted(bins, v, side='left')` — the number of edges strictly below
`v` — adjusted by `include_lowest=True`, which pulls the value equal to the
lowest edge into the first bin by setting its insertion index to 1. -/
def qcutIds (xs : List ℚ) (v : ℚ) : ℕ :=
  if v = (qcutBins xs).headD 0 then 1
  else (qcutBins xs).countP (fun e => decide (e < v))

/-- The bin code `pd.qcut(xs, 3, labels=False, duplicates='drop')` assigns to
the value `v` (an element of `xs`): insertion indices `0` and `len(bins)` are
masked to missing (`NaN`), otherwise the code is the index minus 1. -/
def qcutCode (xs : List ℚ) (v : ℚ) : Option ℕ :=
  if qcutIds xs v = 0 ∨ qcutIds xs v = (qcutBins xs).length then none
  else some (qcutIds xs v - 1)

/-- Codes of a whole column, in input order (`pd.qcut` is pointwise in the
value once the edges are fixed). -/
def qcutCodes (xs : List ℚ) : List (Option ℕ) := xs.map (qcutCode xs)

/-- `qcut ... + 1`: the tertile labels used by `process_analysis`. -/
def qcutLabels (xs : List ℚ) : List (Option ℕ) :=
  (qcutCodes xs).map (Option.map (· + 1))

/-- Smallest value of the column. -/
def minOf (xs : List ℚ) : ℚ := (sortedOf xs).getD 0 0

/-- Largest value of the column. -/
def maxOf (xs : List ℚ) : ℚ := (sortedOf xs).getD ((sortedOf xs).length - 1) 0

/-! ## Tables -/

/-- One row of a pandas `DataFrame` in this pipeline: its date index label and
its cells (one per instrument column; `none` is `NaN`). -/
structure Row where
  date : ℕ
  cells : List (Option ℚ)
  deriving DecidableEq, Repr

/-- Cell of row `t`, column `j` (missing when out of range). -/
def cellAt (rows : List Row) (t j : ℕ) : Option ℚ :=
  ((rows.getD t ⟨0, []⟩).cells).getD j none

/-- `a / b - 1` on optional operands: absent in, absent out. -/
def pctCombine : Option ℚ → Option ℚ → Option ℚ
  | some a, some b => some (a / b - 1)
  | _, _ => none

/-- Row `t` of `prices.pct_change(lag, fill_method=None)`:
`prices[t][j] / prices[t-lag][j] - 1`, missing when either operand is missing
or `t < lag`.  The date labels are preserved. -/
def pctRow (rows : List Row) (lag t : ℕ) : Row :=
  { date := (rows.getD t ⟨0, []⟩).date
    cells := (List.range (rows.getD t ⟨0, []⟩).cells.length).map (fun j =>
      if t < lag then none else pctCombine (cellAt rows t j) (cellAt rows (t - lag) j)) }

/-- `prices.pct_change(lag, fill_method=None)`. -/
def pctChange (lag : ℕ) (rows : List Row) : List Row :=
  (List.range rows.length).map (pctRow rows lag)

/-- `.dropna(how='all')`: keep the rows with at least one present cell. -/
def dropnaAll (rows : List Row) : List Row :=
  rows.filter (fun r => r.cells.any Option.isSome)

/-- `returns = prices.pct_change(fill_method=None).dropna(how='all')`. -/
def compute_returns (prices : List Row) : List Row :=
  dropnaAll (pctChange 1 prices)

/-- `trailing_12m = prices.pct_change(12, fill_method=None).dropna(how='all')`. -/
def compute_trailing (prices : List Row) : List Row :=
  dropnaAll (pctChange 12 prices)

/-! ## Ranking engine (`process_analysis`) -/

/-- One row of the analysis table: date, instrument (column index), trailing
12-month signal, next-month outcome and the tertile label (the source column
is called `quintile`; it is missing when `qcut` returned a masked code). -/
structure SRecord where
  date : ℕ
  ticker : ℕ
  trailing_12m : ℚ
  next_month_ret : ℚ
  quintile : Option ℕ
  deriving DecidableEq, Repr

/-- `returns.index[returns.index > date][0]`: the first row of `returns`
whose date is strictly greater than `d` (in table order), if any. -/
def findNext (returnsT : List Row) (d : ℕ) : Option Row :=
  returnsT.find? (fun r => decide (d < r.date))

/-- The instruments surviving the per-date join
`pd.DataFrame({'trailing_12m': …, 'next_month_ret': …}).dropna()`:
column index together with signal and outcome, both present, in column
order. -/
def survivors (trow rrow : Row) : List (ℕ × ℚ × ℚ) :=
  (List.range trow.cells.length).filterMap (fun j =>
    match trow.cells.getD j none, rrow.cells.getD j none with
    | some s, some r => some (j, s, r)
    | _, _ => none)

/-- The records `process_analysis` contributes for the trailing-table row
`trow`: empty when no later returns date exists or fewer than 3 instruments
survive the join; otherwise one record per survivor, with the `qcut` label of
its signal. -/
def perDate (returnsT : List Row) (trow : Row) : List SRecord :=
  match findNext returnsT trow.date with
  | none => []
  | some rrow =>
    let surv := survivors trow rrow
    if surv.length < 3 then []
    else
      (surv.zip (qcutLabels (surv.map (fun x => x.2.1)))).map (fun p =>
        { date := trow.date, ticker := p.1.1, trailing_12m := p.1.2.1
          next_month_ret := p.1.2.2, quintile := p.2 })

/-- `process_analysis`: loop over the trailing table's dates except the last,
appending each date's block of records. -/
def processAnalysis (prices : List Row) : List SRecord :=
  let returnsT := compute_returns prices
  let trailingT := compute_trailing prices
  trailingT.dropLast.flatMap (perDate returnsT)

/-! ## Transition engine (`compute_transitions`) -/

/-- The sort key of `df.sort_values(['ticker', 'date'])`. -/
def recLe (a b : SRecord) : Prop :=
  a.ticker < b.ticker ∨ (a.ticker = b.ticker ∧ a.date ≤ b.date)

instance : DecidableRel recLe := fun a b => by unfold recLe; infer_instance

instance : IsTotal SRecord recLe :=
  ⟨fun a b => by
    rcases Nat.lt_trichotomy a.ticker b.ticker with h | h | h
    · exact Or.inl (Or.inl h)
    · rcases Nat.le_total a.date b.date with h' | h'
      · exact Or.inl (Or.inr ⟨h, h'⟩)
      · exact Or.inr (Or.inr ⟨h.symm, h'⟩)
    · exact Or.inr (Or.inl h)⟩

instance : IsTrans SRecord recLe :=
  ⟨fun a b c hab hbc => by
    rcases hab with h1 | ⟨e1, d1⟩
    · rcases hbc with h2 | ⟨e2, _⟩
      · exact Or.inl (h1.trans h2)
      · exact Or.inl (e2 ▸ h1)
    · rcases hbc with h2 | ⟨e2, d2⟩
      · exact Or.inl (e1 ▸ h2)
      · exact Or.inr ⟨e1.trans e2, d1.trans d2⟩⟩

/-- `df.sort_values(['ticker', 'date'])` (a stable sort on the lex key). -/
def sortRecords (df : List SRecord) : List SRecord :=
  df.insertionSort recLe

/-- `df.groupby('ticker')['quintile'].shift(-1)`: pair every row with the
`quintile` of the next row of the same ticker (missing when there is no such
row, or when that row's `quintile` is itself missing). -/
def withNext : List SRecord → List (SRecord × Option ℕ)
  | [] => []
  | r :: rest =>
    (r, (rest.find? (fun s => decide (s.ticker = r.ticker))).bind (fun s => s.quintile))
      :: withNext rest

/-- A transition row: the analysis record together with its (present)
`next_quintile`. -/
structure TRecord extends SRecord where
  next_quintile : ℕ
  deriving DecidableEq, Repr

/-- `compute_transitions`: sort by (ticker, date), compute the per-ticker
shifted `quintile`, and `dropna(subset=['next_quintile'])`. -/
def compute_transitions (df : List SRecord) : List TRecord :=
  (withNext (sortRecords df)).filterMap (fun p => p.2.map (fun b => TRecord.mk p.1 b))

/-! ## Summary aggregator -/

/-- The distinct bucket values present in the input, ascending (`groupby`
sorts its keys and drops the missing key). -/
def bucketKeys (records : List SRecord) : List ℕ :=
  ((records.filterMap (fun r => r.quintile)).dedup).insertionSort (· ≤ ·)

/-- The `next_month_ret` column of the group of records with bucket `b`. -/
def bucketOutcomes (records : List SRecord) (b : ℕ) : List ℚ :=
  (records.filter (fun r => decide (r.quintile = some b))).map
    (fun r => r.next_month_ret)

/-- `analysis.groupby('quintile')['next_month_ret'].mean().reset_index()`:
one row per distinct present bucket value, with the arithmetic mean of
`next_month_ret` over its group. -/
def summarize (records : List SRecord) : List (ℕ × ℚ) :=
  (bucketKeys records).map (fun b =>
    (b, (bucketOutcomes records b).sum / ((bucketOutcomes records b).length : ℚ)))

/-- Number of distinct instruments appearing in a record list. -/
def numDistinctTickers (df : List SRecord) : ℕ :=
  ((df.map (fun r => r.ticker)).dedup).length

/-- Number of present (non-missing) observations of instrument column `j`
in a price table. -/
def presentCount (prices : List Row) (j : ℕ) : ℕ :=
  (prices.map (fun r => r.cells.getD j none)).countP (fun c => c.isSome)

/-- The record `process_analysis` emits for one surviving instrument
`(column, signal, outcome)` at date `d`, given the whole column of surviving
signals `sigs` (used by the bucketing). -/
def recOfSurvivor (d : ℕ) (sigs : List ℚ) (x : ℕ × ℚ × ℚ) : SRecord :=
  { date := d, ticker := x.1, trailing_12m := x.2.1, next_month_ret := x.2.2
    quintile := (qcutCode sigs x.2.1).map (· + 1) }

/-! ## Concrete tables used by counterexamples and witnesses

All tables have 3–5 instrument columns and 14 monthly rows (dates 0‥13), so
the trailing-12-month table has rows at dates 12 and 13 and the ranking loop
processes exactly the date 12. -/

/-- Three instruments whose prices all double over the first 12 months:
at date 12 every surviving instrument has the same trailing signal 1. -/
def pricesConstant : List Row :=
  (List.range 14).map (fun t =>
    ⟨t, [some (if t < 12 then (1 : ℚ) else 2),
         some (if t < 12 then (1 : ℚ) else 2),
         some (if t < 12 then (1 : ℚ) else 2)]⟩)

/-- Five instruments with trailing signals `0, 6, 6, 9, 12` at date 12: the
interior quantile bin is empty, so the emitted labels are `{1, 3}`. -/
def pricesGap : List Row :=
  (List.range 14).map (fun t =>
    ⟨t, [some (1 : ℚ),
         some (if t < 12 then (1 : ℚ) else 7),
         some (if t < 12 then (1 : ℚ) else 7),
         some (if t < 12 then (1 : ℚ) else 10),
         some (if t < 12 then (1 : ℚ) else 13)]⟩)

/-- A single instrument observed only at dates 0 and 12 (two present
observations), which nevertheless has a present trailing 12-month return. -/
def pricesSparse : List Row :=
  (List.range 13).map (fun t =>
    ⟨t, [if t = 0 then some (1 : ℚ) else if t = 12 then some 2 else none]⟩)

/-- Two instruments over 14 months: column 0 has a single present
observation (date 0), column 1 is fully observed, so the trailing table is
nonempty while column 0 never has a trailing value. -/
def pricesOneObs : List Row :=
  (List.range 14).map (fun t =>
    ⟨t, [if t = 0 then some (1 : ℚ) else none, some ((t : ℚ) + 1)]⟩)

/-- Three instruments with distinct trailing signals `1, 2, 3` at date 12:
the clean case, labels `1, 2, 3`. -/
def pricesDistinct : List Row :=
  (List.range 14).map (fun t =>
    ⟨t, [some (if t < 12 then (1 : ℚ) else 2),
         some (if t < 12 then (1 : ℚ) else 3),
         some (if t < 12 then (1 : ℚ) else 4)]⟩)

/-- A small record list (two tickers, ticker 0 with two dates, ticker 1 with
one) used to witness the transition and summary theorems. -/
def dfSmall : List SRecord :=
  [⟨10, 0, 1, 5, some 1⟩, ⟨20, 0, 2, 6, some 2⟩, ⟨10, 1, 3, 7, some 3⟩]

/-! ## Auxiliary list lemmas -/

theorem headD_mem {α : Type} {l : List α} (h : l ≠ []) (d : α) : l.headD d ∈ l := by
  cases l with
  | nil => exact absurd rfl h
  | cons a t => exact List.mem_cons_self a t

theorem two_le_length_of_ne_mem {α : Type} {l : List α} {a b : α}
    (ha : a ∈ l) (hb : b ∈ l) (hne : a ≠ b) : 2 ≤ l.length := by
  cases l with
  | nil => simp at ha
  | cons x t =>
    cases t with
    | nil =>
      simp at ha hb
      exact absurd (ha.trans hb.symm) hne
    | cons y u => simp only [List.length_cons]; omega

theorem countP_lt_length_of_mem {α : Type} {l : List α} {a : α} {p : α → Bool}
    (ha : a ∈ l) (hpa : ¬ p a) : l.countP p < l.length := by
  induction l with
  | nil => simp at ha
  | cons x t ih =>
    rcases List.mem_cons.mp ha with rfl | hat
    · rw [List.countP_cons_of_neg _ _ (by simpa using hpa)]
      have h1 := List.countP_le_length (p := p) (l := t)
      simp only [List.length_cons]; omega
    · rw [List.countP_cons]
      have h1 : t.countP p < t.length := ih hat
      simp only [List.length_cons]
      split <;> omega

theorem getD_mem_of_lt {α : Type} {l : List α} {i : ℕ} (h : i < l.length) (d : α) :
    l.getD i d ∈ l := by
  rw [List.getD_eq_getElem?_getD, List.getElem?_eq_getElem h]
  exact List.getElem_mem h

/-! ## `dedupAdj` lemmas -/

theorem dedupAdj_cons₂_eq {x y : ℚ} {u : List ℚ} (h : x = y) :
    dedupAdj (x :: y :: u) = dedupAdj (y :: u) := by
  simp [dedupAdj, h]

theorem dedupAdj_cons₂_ne {x y : ℚ} {u : List ℚ} (h : x ≠ y) :
    dedupAdj (x :: y :: u) = x :: dedupAdj (y :: u) := by
  simp [dedupAdj, h]

theorem mem_dedupAdj : ∀ {l : List ℚ} {a : ℚ}, a ∈ dedupAdj l ↔ a ∈ l
  | [], a => by simp [dedupAdj]
  | [x], a => by simp [dedupAdj]
  | x :: y :: u, a => by
    by_cases hxy : x = y
    · rw [dedupAdj_cons₂_eq hxy, mem_dedupAdj]
      subst hxy
      simp only [List.mem_cons]
      tauto
    · rw [dedupAdj_cons₂_ne hxy]
      simp only [List.mem_cons, mem_dedupAdj]

theorem dedupAdj_headD : ∀ (l : List ℚ) (d : ℚ), (dedupAdj l).headD d = l.headD d
  | [], _ => rfl
  | [_], _ => rfl
  | x :: y :: u, d => by
    by_cases hxy : x = y
    · rw [dedupAdj_cons₂_eq hxy, dedupAdj_headD]
      subst hxy; rfl
    · rw [dedupAdj_cons₂_ne hxy]
      rfl

theorem dedupAdj_length_le : ∀ l : List ℚ, (dedupAdj l).length ≤ l.length
  | [] => by simp [dedupAdj]
  | [x] => by simp [dedupAdj]
  | x :: y :: u => by
    by_cases hxy : x = y
    · rw [dedupAdj_cons₂_eq hxy]
      exact (dedupAdj_length_le (y :: u)).trans (by simp)
    · rw [dedupAdj_cons₂_ne hxy]
      simpa using dedupAdj_length_le (y :: u)

theorem dedupAdj_ne_nil : ∀ {l : List ℚ}, l ≠ [] → dedupAdj l ≠ []
  | [], h => absurd rfl h
  | [x], _ => by simp [dedupAdj]
  | x :: y :: u, _ => by
    by_cases hxy : x = y
    · rw [dedupAdj_cons₂_eq hxy]
      exact dedupAdj_ne_nil (by simp)
    · rw [dedupAdj_cons₂_ne hxy]
      simp

/-! ## Minimum and maximum of a sorted list -/

theorem sorted_getD_zero_le {s : List ℚ} (hs : s.Sorted (· ≤ ·)) {a : ℚ} (ha : a ∈ s) :
    s.getD 0 0 ≤ a := by
  cases s with
  | nil => simp at ha
  | cons x t =>
    rcases List.mem_cons.mp ha with rfl | hat
    · simp
    · simpa using (List.pairwise_cons.mp hs).1 a hat

theorem sorted_le_getD_last {s : List ℚ} (hs : s.Sorted (· ≤ ·)) {a : ℚ} (ha : a ∈ s) :
    a ≤ s.getD (s.length - 1) 0 := by
  induction s with
  | nil => simp at ha
  | cons x t ih =>
    cases t with
    | nil =>
      simp at ha
      simp [ha]
    | cons y u =>
      have hlast : (x :: y :: u).getD ((x :: y :: u).length - 1) 0
          = (y :: u).getD ((y :: u).length - 1) 0 := by
        simp [List.length_cons]
      rw [hlast]
      have hs' : (y :: u).Sorted (· ≤ ·) := (List.pairwise_cons.mp hs).2
      rcases List.mem_cons.mp ha with rfl | hat
      · have hmem : (y :: u).getD ((y :: u).length - 1) 0 ∈ y :: u :=
          getD_mem_of_lt (by simp) 0
        exact le_trans ((List.pairwise_cons.mp hs).1 _ hmem) le_rfl
      · exact ih hs' hat

/-! ## Quantile endpoint lemmas -/

theorem ratFloorNat_zero : ratFloorNat 0 = 0 := by
  simp [ratFloorNat]

theorem ratFloorNat_natCast (k : ℕ) : ratFloorNat (k : ℚ) = k := by
  simp [ratFloorNat]

theorem interpIdx_zero (s : List ℚ) : interpIdx s 0 = 0 := by
  unfold interpIdx
  rw [zero_mul, ratFloorNat_zero]
  exact Nat.zero_min _

theorem quantileAt_zero (s : List ℚ) : quantileAt s 0 = s.getD 0 0 := by
  unfold quantileAt
  rw [interpIdx_zero]
  push_cast
  ring

theorem interpIdx_one {s : List ℚ} (hs : s ≠ []) : interpIdx s 1 = s.length - 1 := by
  have hn : 1 ≤ s.length := List.length_pos.mpr hs
  unfold interpIdx
  rw [one_mul]
  have hcast : ((s.length : ℚ) - 1) = ((s.length - 1 : ℕ) : ℚ) := by
    rw [Nat.cast_sub hn, Nat.cast_one]
  rw [hcast, ratFloorNat_natCast, min_self]

theorem quantileAt_one (s : List ℚ) (hs : s ≠ []) :
    quantileAt s 1 = s.getD (s.length - 1) 0 := by
  have hn : 1 ≤ s.length := List.length_pos.mpr hs
  unfold quantileAt
  rw [interpIdx_one hs]
  rw [List.getD_eq_default _ _ (by omega : s.length ≤ s.length - 1 + 1)]
  ring

theorem quantileAt_const {s : List ℚ} {v : ℚ} (hs : s ≠ [])
    (h : ∀ a ∈ s, a = v) (p : ℚ) : quantileAt s p = v := by
  have hn : 1 ≤ s.length := List.length_pos.mpr hs
  have hi : interpIdx s p < s.length := by
    have h1 := Nat.min_le_right (ratFloorNat (p * ((s.length : ℚ) - 1))) (s.length - 1)
    unfold interpIdx
    omega
  unfold quantileAt
  have hlo : s.getD (interpIdx s p) 0 = v := h _ (getD_mem_of_lt hi 0)
  rw [hlo]
  have hhi : s.getD (interpIdx s p + 1) v = v := by
    by_cases hlt : interpIdx s p + 1 < s.length
    · exact h _ (getD_mem_of_lt hlt v)
    · exact List.getD_eq_default _ _ (by omega)
  rw [hhi]
  ring

/-! ## Facts about the sorted column and the bin edges -/

theorem sortedOf_perm (xs : List ℚ) : List.Perm (sortedOf xs) xs :=
  List.perm_insertionSort _ xs

theorem mem_sortedOf {xs : List ℚ} {a : ℚ} : a ∈ sortedOf xs ↔ a ∈ xs :=
  (sortedOf_perm xs).mem_iff

theorem sortedOf_sorted (xs : List ℚ) : (sortedOf xs).Sorted (· ≤ ·) :=
  List.sorted_insertionSort _ xs

theorem sortedOf_ne_nil {xs : List ℚ} (h : xs ≠ []) : sortedOf xs ≠ [] := by
  intro hc
  exact h (List.Perm.eq_nil ((sortedOf_perm xs).symm.trans (hc ▸ List.Perm.refl _)))

theorem minOf_le {xs : List ℚ} {a : ℚ} (ha : a ∈ xs) : minOf xs ≤ a :=
  sorted_getD_zero_le (sortedOf_sorted xs) (mem_sortedOf.mpr ha)

theorem le_maxOf {xs : List ℚ} {a : ℚ} (ha : a ∈ xs) : a ≤ maxOf xs :=
  sorted_le_getD_last (sortedOf_sorted xs) (mem_sortedOf.mpr ha)

theorem minOf_mem {xs : List ℚ} (h : xs ≠ []) : minOf xs ∈ xs := by
  have hs := sortedOf_ne_nil h
  have : minOf xs ∈ sortedOf xs := getD_mem_of_lt (by
    cases hsx : sortedOf xs with
    | nil => exact absurd hsx hs
    | cons a t => simp) 0
  exact mem_sortedOf.mp this

theorem maxOf_mem {xs : List ℚ} (h : xs ≠ []) : maxOf xs ∈ xs := by
  have hs := sortedOf_ne_nil h
  have hlen : 0 < (sortedOf xs).length := List.length_pos.mpr hs
  have : maxOf xs ∈ sortedOf xs := getD_mem_of_lt (by omega) 0
  exact mem_sortedOf.mp this

theorem minOf_ne_maxOf {xs : List ℚ} {x y : ℚ} (hx : x ∈ xs) (hy : y ∈ xs)
    (hne : x ≠ y) : minOf xs ≠ maxOf xs := by
  intro hc
  apply hne
  have h1 : x ≤ maxOf xs := le_maxOf hx
  have h2 : y ≤ maxOf xs := le_maxOf hy
  have h3 : minOf xs ≤ x := minOf_le hx
  have h4 : minOf xs ≤ y := minOf_le hy
  have hxe : x = maxOf xs := le_antisymm h1 (hc ▸ h3)
  have hye : y = maxOf xs := le_antisymm h2 (hc ▸ h4)
  rw [hxe, hye]

theorem qcutBins_ne_nil (xs : List ℚ) : qcutBins xs ≠ [] :=
  dedupAdj_ne_nil (by simp)

theorem qcutBins_length_le (xs : List ℚ) : (qcutBins xs).length ≤ 4 := by
  have := dedupAdj_length_le [quantileAt (sortedOf xs) 0, quantileAt (sortedOf xs) (1/3),
    quantileAt (sortedOf xs) (2/3), quantileAt (sortedOf xs) 1]
  simpa [qcutBins] using this

theorem qcutBins_headD (xs : List ℚ) : (qcutBins xs).headD 0 = minOf xs := by
  unfold qcutBins
  rw [dedupAdj_headD]
  simp [quantileAt_zero, minOf]

theorem maxOf_mem_qcutBins {xs : List ℚ} (h : xs ≠ []) : maxOf xs ∈ qcutBins xs := by
  unfold qcutBins
  rw [mem_dedupAdj]
  have : quantileAt (sortedOf xs) 1 = maxOf xs :=
    quantileAt_one _ (sortedOf_ne_nil h)
  rw [← this]
  simp

theorem qcutBins_const {xs : List ℚ} {v : ℚ} (hx : xs ≠ []) (h : ∀ a ∈ xs, a = v) :
    qcutBins xs = [v] := by
  have hs := sortedOf_ne_nil hx
  have hsv : ∀ a ∈ sortedOf xs, a = v := fun a ha => h a (mem_sortedOf.mp ha)
  unfold qcutBins
  rw [quantileAt_const hs hsv, quantileAt_const hs hsv, quantileAt_const hs hsv,
    quantileAt_const hs hsv]
  simp [dedupAdj]

theorem two_le_qcutBins_length {xs : List ℚ} {x y : ℚ} (hx : x ∈ xs) (hy : y ∈ xs)
    (hne : x ≠ y) : 2 ≤ (qcutBins xs).length := by
  have hxs : xs ≠ [] := by rintro rfl; simp at hx
  have h1 : minOf xs ∈ qcutBins xs := by
    rw [← qcutBins_headD xs]
    exact headD_mem (qcutBins_ne_nil xs) 0
  have h2 : maxOf xs ∈ qcutBins xs := maxOf_mem_qcutBins hxs
  exact two_le_length_of_ne_mem h1 h2 (minOf_ne_maxOf hx hy hne)

/-! ## Behaviour of the `qcut` codes -/

theorem qcutCode_const {xs : List ℚ} {v : ℚ} (hx : xs ≠ []) (h : ∀ a ∈ xs, a = v) :
    ∀ w ∈ xs, qcutCode xs w = none := by
  intro w hw
  have hb := qcutBins_const hx h
  have hwv : w = v := h w hw
  unfold qcutCode qcutIds
  rw [hb]
  simp [hwv]

theorem qcutIds_pos {xs : List ℚ} {v : ℚ} (hv : v ∈ xs) : 1 ≤ qcutIds xs v := by
  unfold qcutIds
  by_cases hhead : v = (qcutBins xs).headD 0
  · rw [if_pos hhead]
  · rw [if_neg hhead]
    have hxs : xs ≠ [] := by rintro rfl; simp at hv
    have hmin : minOf xs < v := by
      rcases lt_or_eq_of_le (minOf_le hv) with h | h
      · exact h
      · exact absurd (by rw [← h, ← qcutBins_headD xs] : v = (qcutBins xs).headD 0) hhead
    have hminmem : minOf xs ∈ qcutBins xs := by
      rw [← qcutBins_headD xs]
      exact headD_mem (qcutBins_ne_nil xs) 0
    have : 0 < (qcutBins xs).countP (fun e => decide (e < v)) :=
      List.countP_pos_iff.mpr ⟨minOf xs, hminmem, by simpa using hmin⟩
    omega

theorem qcutIds_lt_length {xs : List ℚ} {v : ℚ} (hv : v ∈ xs)
    (h2 : 2 ≤ (qcutBins xs).length) : qcutIds xs v < (qcutBins xs).length := by
  unfold qcutIds
  by_cases hhead : v = (qcutBins xs).headD 0
  · rw [if_pos hhead]; omega
  · rw [if_neg hhead]
    have hxs : xs ≠ [] := by rintro rfl; simp at hv
    apply countP_lt_length_of_mem (maxOf_mem_qcutBins hxs)
    simpa using le_maxOf hv

theorem qcutCode_eq_some {xs : List ℚ} {v : ℚ} (hv : v ∈ xs)
    (h2 : 2 ≤ (qcutBins xs).length) :
    qcutCode xs v = some (qcutIds xs v - 1) ∧ qcutIds xs v - 1 ≤ 2 := by
  have hpos := qcutIds_pos hv
  have hlt := qcutIds_lt_length hv h2
  have hle4 := qcutBins_length_le xs
  constructor
  · unfold qcutCode
    rw [if_neg (by omega)]
  · omega

theorem qcutCode_monotone {xs : List ℚ} {x y : ℚ} (hx : x ∈ xs) (hy : y ∈ xs)
    (hlt : y < x) :
    ∃ cy cx, qcutCode xs y = some cy ∧ qcutCode xs x = some cx ∧ cy ≤ cx := by
  have h2 : 2 ≤ (qcutBins xs).length := two_le_qcutBins_length hx hy (ne_of_gt hlt)
  obtain ⟨hcx, _⟩ := qcutCode_eq_some hx h2
  obtain ⟨hcy, _⟩ := qcutCode_eq_some hy h2
  refine ⟨qcutIds xs y - 1, qcutIds xs x - 1, hcy, hcx, ?_⟩
  have hids : qcutIds xs y ≤ qcutIds xs x := by
    by_cases hyhead : y = (qcutBins xs).headD 0
    · have : qcutIds xs y = 1 := by unfold qcutIds; rw [if_pos hyhead]
      rw [this]
      exact qcutIds_pos hx
    · have hxhead : x ≠ (qcutBins xs).headD 0 := by
        intro hc
        rw [qcutBins_headD xs] at hc
        have := minOf_le hy
        rw [← hc] at this
        exact absurd hlt (not_lt.mpr this)
      unfold qcutIds
      rw [if_neg hyhead, if_neg hxhead]
      apply List.countP_mono_left
      intro e _ he
      simp only [decide_eq_true_eq] at he ⊢
      exact he.trans hlt
  omega

theorem qcutCode_minOf {xs : List ℚ}
    (h2 : 2 ≤ (qcutBins xs).length) : qcutCode xs (minOf xs) = some 0 := by
  have hids : qcutIds xs (minOf xs) = 1 := by
    unfold qcutIds
    rw [if_pos (qcutBins_headD xs).symm]
  unfold qcutCode
  rw [hids, if_neg (by omega)]

theorem qcutIds_le_length (xs : List ℚ) (v : ℚ) :
    qcutIds xs v ≤ (qcutBins xs).length := by
  unfold qcutIds
  by_cases hhead : v = (qcutBins xs).headD 0
  · rw [if_pos hhead]
    have h1 : (qcutBins xs).length ≠ 0 :=
      fun hc => qcutBins_ne_nil xs (List.length_eq_zero.mp hc)
    omega
  · rw [if_neg hhead]
    exact List.countP_le_length _

theorem qcutCode_le_two {xs : List ℚ} {v : ℚ} {c : ℕ}
    (h : qcutCode xs v = some c) : c ≤ 2 := by
  unfold qcutCode at h
  by_cases hg : qcutIds xs v = 0 ∨ qcutIds xs v = (qcutBins xs).length
  · rw [if_pos hg] at h; cases h
  · rw [if_neg hg] at h
    have h4 := qcutBins_length_le xs
    have hle := qcutIds_le_length xs v
    push_neg at hg
    have hc : c = qcutIds xs v - 1 := (Option.some_inj.mp h).symm
    omega

/-! ## Shape of the per-date records -/

theorem qcutLabels_eq_map (sigs : List ℚ) :
    qcutLabels sigs = sigs.map (fun v => (qcutCode sigs v).map (· + 1)) := by
  unfold qcutLabels qcutCodes
  rw [List.map_map]
  rfl

theorem zip_map_self {α β : Type} (g : α → β) (l : List α) :
    l.zip (l.map g) = l.map (fun a => (a, g a)) := by
  induction l with
  | nil => rfl
  | cons x t ih => simp [ih]

theorem perDate_eq_map {rt : List Row} {trow rrow : Row}
    (hfn : findNext rt trow.date = some rrow)
    (hlen : ¬ (survivors trow rrow).length < 3) :
    perDate rt trow = (survivors trow rrow).map
      (recOfSurvivor trow.date ((survivors trow rrow).map (fun x => x.2.1))) := by
  unfold perDate
  rw [hfn]
  simp only [if_neg hlen]
  rw [qcutLabels_eq_map, List.map_map, zip_map_self, List.map_map]
  rfl

theorem perDate_date {rt : List Row} {trow : Row} {rec : SRecord}
    (h : rec ∈ perDate rt trow) : rec.date = trow.date := by
  unfold perDate at h
  cases hfn : findNext rt trow.date with
  | none => rw [hfn] at h; simp at h
  | some rrow =>
    rw [hfn] at h
    dsimp only at h
    by_cases hlen : (survivors trow rrow).length < 3
    · rw [if_pos hlen] at h; simp at h
    · rw [if_neg hlen] at h
      obtain ⟨p, _, rfl⟩ := List.mem_map.mp h
      rfl

/-! ## Date bookkeeping of the pipeline tables -/

theorem map_date_pctChange (lag : ℕ) (rows : List Row) :
    (pctChange lag rows).map (fun r => r.date) = rows.map (fun r => r.date) := by
  apply List.ext_getElem
  · simp [pctChange]
  · intro i h1 h2
    simp only [pctChange, List.getElem_map, List.getElem_range, pctRow]
    have hi : i < rows.length := by simpa using h2
    rw [List.getD_eq_getElem?_getD, List.getElem?_eq_getElem hi]
    rfl

theorem dates_pairwise_pipeline {prices : List Row}
    (hd : (prices.map (fun r => r.date)).Pairwise (· < ·)) (lag : ℕ) :
    ((dropnaAll (pctChange lag prices)).map (fun r => r.date)).Pairwise (· < ·) := by
  have h1 : ((pctChange lag prices).map (fun r => r.date)).Pairwise (· < ·) := by
    rw [map_date_pctChange]; exact hd
  exact h1.sublist ((List.filter_sublist _).map _)

theorem eq_of_mem_pairwise_ne {l : List Row}
    (hp : (l.map (fun r => r.date)).Pairwise (· ≠ ·))
    {a b : Row} (ha : a ∈ l) (hb : b ∈ l) (hdate : a.date = b.date) : a = b := by
  induction l with
  | nil => simp at ha
  | cons x t ih =>
    rw [List.map_cons, List.pairwise_cons] at hp
    rcases List.mem_cons.mp ha with rfl | hat
    · rcases List.mem_cons.mp hb with rfl | hbt
      · rfl
      · exact absurd hdate (hp.1 _ (List.mem_map_of_mem _ hbt))
    · rcases List.mem_cons.mp hb with rfl | hbt
      · exact absurd hdate.symm (hp.1 _ (List.mem_map_of_mem _ hat))
      · exact ih hp.2 hat hbt

theorem flatMap_filter_date {f : Row → List SRecord} {l : List Row}
    (hk : ∀ t ∈ l, ∀ b ∈ f t, b.date = t.date)
    (hp : (l.map (fun r => r.date)).Pairwise (· ≠ ·))
    {trow : Row} (ht : trow ∈ l) :
    (l.flatMap f).filter (fun b => decide (b.date = trow.date)) = f trow := by
  induction l with
  | nil => simp at ht
  | cons t rest ih =>
    rw [List.map_cons, List.pairwise_cons] at hp
    rw [List.flatMap_cons, List.filter_append]
    rcases List.mem_cons.mp ht with rfl | htr
    · have hft : (f trow).filter (fun b => decide (b.date = trow.date)) = f trow := by
        rw [List.filter_eq_self]
        intro b hb
        simpa using hk trow (List.mem_cons_self _ _) b hb
      have hrest : (rest.flatMap f).filter (fun b => decide (b.date = trow.date)) = [] := by
        rw [List.filter_eq_nil_iff]
        intro b hb
        obtain ⟨t', ht', hbt'⟩ := List.mem_flatMap.mp hb
        have h1 : b.date = t'.date := hk t' (List.mem_cons_of_mem _ ht') b hbt'
        have h2 : trow.date ≠ t'.date := hp.1 _ (List.mem_map_of_mem _ ht')
        simp [h1]
        exact fun hc => h2 hc.symm
      rw [hft, hrest, List.append_nil]
    · have hft : (f t).filter (fun b => decide (b.date = trow.date)) = [] := by
        rw [List.filter_eq_nil_iff]
        intro b hb
        have h1 : b.date = t.date := hk t (List.mem_cons_self _ _) b hb
        have h2 : t.date ≠ trow.date := hp.1 _ (List.mem_map_of_mem _ htr)
        simp [h1]
        exact h2
      rw [hft, List.nil_append]
      exact ih (fun t' ht' => hk t' (List.mem_cons_of_mem _ ht')) hp.2 htr

theorem trailing_dropLast_dates_ne {prices : List Row}
    (hd : (prices.map (fun r => r.date)).Pairwise (· < ·)) :
    (((compute_trailing prices).dropLast).map (fun r => r.date)).Pairwise (· ≠ ·) := by
  have h1 : ((compute_trailing prices).map (fun r => r.date)).Pairwise (· < ·) :=
    dates_pairwise_pipeline hd 12
  have h2 := h1.sublist ((List.dropLast_sublist _).map _)
  exact h2.imp (fun h => ne_of_lt h)

theorem processAnalysis_filter_date {prices : List Row}
    (hd : (prices.map (fun r => r.date)).Pairwise (· < ·))
    {trow : Row} (ht : trow ∈ (compute_trailing prices).dropLast) :
    (processAnalysis prices).filter (fun r => decide (r.date = trow.date))
      = perDate (compute_returns prices) trow := by
  unfold processAnalysis
  exact flatMap_filter_date (fun t _ b hb => perDate_date hb)
    (trailing_dropLast_dates_ne hd) ht

/-! ## Claim C2 — bucket assignment is monotone in the signal -/

/-- C2: for every price table with strictly increasing dates, and any two
records emitted at the same date, if one instrument's `trailing_12m` signal is
strictly higher than the other's, then its bucket label is never strictly
lower: both buckets are present and the higher signal's bucket is ≥ the
lower signal's. -/
theorem c2_bucket_monotone {prices : List Row}
    (hd : (prices.map (fun r => r.date)).Pairwise (· < ·))
    {r1 r2 : SRecord} (h1 : r1 ∈ processAnalysis prices)
    (h2 : r2 ∈ processAnalysis prices)
    (hdate : r1.date = r2.date) (hsig : r2.trailing_12m < r1.trailing_12m) :
    ∃ b1 b2, r1.quintile = some b1 ∧ r2.quintile = some b2 ∧ b2 ≤ b1 := by
  unfold processAnalysis at h1 h2
  obtain ⟨trow1, ht1, hr1⟩ := List.mem_flatMap.mp h1
  obtain ⟨trow2, ht2, hr2⟩ := List.mem_flatMap.mp h2
  have htr : trow1 = trow2 := by
    apply eq_of_mem_pairwise_ne (trailing_dropLast_dates_ne hd) ht1 ht2
    rw [← perDate_date hr1, ← perDate_date hr2, hdate]
  subst htr
  cases hfn : findNext (compute_returns prices) trow1.date with
  | none =>
    unfold perDate at hr1
    rw [hfn] at hr1
    simp at hr1
  | some rrow =>
    by_cases hlen : (survivors trow1 rrow).length < 3
    · unfold perDate at hr1
      rw [hfn] at hr1
      dsimp only at hr1
      rw [if_pos hlen] at hr1
      simp at hr1
    · rw [perDate_eq_map hfn hlen] at hr1 hr2
      obtain ⟨x1, hx1, hrx1⟩ := List.mem_map.mp hr1
      obtain ⟨x2, hx2, hrx2⟩ := List.mem_map.mp hr2
      have hs1 : x1.2.1 ∈ (survivors trow1 rrow).map (fun x => x.2.1) :=
        List.mem_map_of_mem _ hx1
      have hs2 : x2.2.1 ∈ (survivors trow1 rrow).map (fun x => x.2.1) :=
        List.mem_map_of_mem _ hx2
      have hsig' : x2.2.1 < x1.2.1 := by
        have e1 : r1.trailing_12m = x1.2.1 := by rw [← hrx1]; rfl
        have e2 : r2.trailing_12m = x2.2.1 := by rw [← hrx2]; rfl
        rw [e1, e2] at hsig
        exact hsig
      obtain ⟨cy, cx, hcy, hcx, hle⟩ := qcutCode_monotone hs1 hs2 hsig'
      refine ⟨cx + 1, cy + 1, ?_, ?_, by omega⟩
      · rw [← hrx1]
        show (qcutCode _ x1.2.1).map (· + 1) = some (cx + 1)
        rw [hcx]
        rfl
      · rw [← hrx2]
        show (qcutCode _ x2.2.1).map (· + 1) = some (cy + 1)
        rw [hcy]
        rfl

/-- Witness for C2 at a concrete table: on `pricesDistinct` the records of
tickers 1 (signal 2) and 0 (signal 1) at date 12 get buckets 2 ≥ 1. -/
theorem c2_bucket_monotone_witness :
    ∃ b1 b2, (⟨12, 1, 2, 0, some 2⟩ : SRecord).quintile = some b1 ∧
      (⟨12, 0, 1, 0, some 1⟩ : SRecord).quintile = some b2 ∧ b2 ≤ b1 :=
  @c2_bucket_monotone pricesDistinct
    (by with_unfolding_all decide)
    ⟨12, 1, 2, 0, some 2⟩ ⟨12, 0, 1, 0, some 1⟩
    (by with_unfolding_all decide)
    (by with_unfolding_all decide)
    (by with_unfolding_all decide)
    (by with_unfolding_all decide)

/-! ## Claim C1 — per-date record emission -/

/-- C1, counterexample: on `pricesConstant` the date 12 is a non-final
trailing date with exactly 3 instruments having both signal and outcome
present, yet every emitted record's bucket is missing — not in `{1,2,3}` —
because the constant signal column makes `qcut(duplicates='drop')` return
all-`NaN` codes instead of raising. -/
theorem c1_counterexample :
    (⟨12, [some 1, some 1, some 1]⟩ : Row) ∈ (compute_trailing pricesConstant).dropLast
    ∧ findNext (compute_returns pricesConstant) 12
        = some ⟨13, [some 0, some 0, some 0]⟩
    ∧ (survivors ⟨12, [some 1, some 1, some 1]⟩
        ⟨13, [some 0, some 0, some 0]⟩).length = 3
    ∧ (processAnalysis pricesConstant).map (fun r => (r.date, r.ticker, r.quintile))
        = [(12, 0, none), (12, 1, none), (12, 2, none)] := by
  with_unfolding_all decide

/-- C1, amended: for every date `d` of the trailing table except the last, if
a later returns date exists and at least 3 instruments have both signal and
outcome present, then `process_analysis` emits exactly one record per
surviving instrument at `d` (the records' tickers are exactly the surviving
columns, in order), and every emitted record's bucket is in `{1,2,3}` —
unless all surviving signals are equal, in which case the records are still
emitted but with a missing bucket label. -/
theorem c1_per_date_records {prices : List Row}
    (hd : (prices.map (fun r => r.date)).Pairwise (· < ·))
    {trow rrow : Row} (ht : trow ∈ (compute_trailing prices).dropLast)
    (hfn : findNext (compute_returns prices) trow.date = some rrow)
    (h3 : 3 ≤ (survivors trow rrow).length) :
    ((processAnalysis prices).filter (fun r => decide (r.date = trow.date))).map
        (fun r => r.ticker) = (survivors trow rrow).map (fun x => x.1)
    ∧ ∀ rec ∈ (processAnalysis prices).filter (fun r => decide (r.date = trow.date)),
        (∃ b, rec.quintile = some b ∧ 1 ≤ b ∧ b ≤ 3)
        ∨ (rec.quintile = none ∧
            ∀ x ∈ survivors trow rrow, ∀ y ∈ survivors trow rrow, x.2.1 = y.2.1) := by
  have hflt := processAnalysis_filter_date hd ht
  have hlen : ¬ (survivors trow rrow).length < 3 := by omega
  rw [hflt, perDate_eq_map hfn hlen]
  constructor
  · rw [List.map_map]
    rfl
  · intro rec hrec
    obtain ⟨x, hx, hrx⟩ := List.mem_map.mp hrec
    by_cases hconst : ∀ u ∈ survivors trow rrow, ∀ y ∈ survivors trow rrow,
        u.2.1 = y.2.1
    · refine Or.inr ⟨?_, hconst⟩
      have hsne : (survivors trow rrow).map (fun z => z.2.1) ≠ [] := by
        intro hc
        rw [← List.length_eq_zero] at hc
        rw [List.length_map] at hc
        omega
      have hall : ∀ a ∈ (survivors trow rrow).map (fun z => z.2.1), a = x.2.1 := by
        intro a ha
        obtain ⟨y, hy, rfl⟩ := List.mem_map.mp ha
        exact hconst y hy x hx
      have hnone := qcutCode_const hsne hall x.2.1 (List.mem_map_of_mem _ hx)
      rw [← hrx]
      show (qcutCode _ x.2.1).map (· + 1) = none
      rw [hnone]
      rfl
    · push_neg at hconst
      obtain ⟨u, hu, y, hy, hne⟩ := hconst
      have h2 : 2 ≤ (qcutBins ((survivors trow rrow).map (fun z => z.2.1))).length :=
        two_le_qcutBins_length (List.mem_map_of_mem _ hu) (List.mem_map_of_mem _ hy)
          hne
      have hxmem : x.2.1 ∈ (survivors trow rrow).map (fun z => z.2.1) :=
        List.mem_map_of_mem _ hx
      obtain ⟨hsome, hbnd⟩ := qcutCode_eq_some hxmem h2
      refine Or.inl ⟨qcutIds ((survivors trow rrow).map (fun z => z.2.1)) x.2.1
        - 1 + 1, ?_, by omega, by omega⟩
      rw [← hrx]
      show (qcutCode _ x.2.1).map (· + 1) = _
      rw [hsome]
      rfl

/-- Witness for C1 at `pricesDistinct`: the three records at date 12 carry
tickers `0, 1, 2` and each bucket satisfies the stated disjunction. -/
theorem c1_per_date_records_witness :
    ((processAnalysis pricesDistinct).filter (fun r => decide (r.date
        = (⟨12, [some 1, some 2, some 3]⟩ : Row).date))).map (fun r => r.ticker)
      = (survivors ⟨12, [some 1, some 2, some 3]⟩
          ⟨13, [some 0, some 0, some 0]⟩).map (fun x => x.1)
    ∧ ∀ rec ∈ (processAnalysis pricesDistinct).filter (fun r => decide (r.date
        = (⟨12, [some 1, some 2, some 3]⟩ : Row).date)),
        (∃ b, rec.quintile = some b ∧ 1 ≤ b ∧ b ≤ 3)
        ∨ (rec.quintile = none ∧
            ∀ x ∈ survivors ⟨12, [some 1, some 2, some 3]⟩
                ⟨13, [some 0, some 0, some 0]⟩,
              ∀ y ∈ survivors ⟨12, [some 1, some 2, some 3]⟩
                ⟨13, [some 0, some 0, some 0]⟩, x.2.1 = y.2.1) :=
  @c1_per_date_records pricesDistinct
    (by with_unfolding_all decide)
    ⟨12, [some 1, some 2, some 3]⟩
    ⟨13, [some 0, some 0, some 0]⟩
    (by with_unfolding_all decide)
    (by with_unfolding_all decide)
    (by with_unfolding_all decide)

/-! ## Claim C10 — which labels a date can use -/

set_option maxHeartbeats 2000000 in
/-- C10, counterexample: on `pricesGap` (signals `0, 6, 6, 9, 12` at
date 12) the emitted labels are `{1, 3}` — label 3 is used while label 2 is
not, so the used set is not a contiguous range `{1, …, k}`. -/
theorem c10_counterexample :
    (processAnalysis pricesGap).map (fun r => (r.date, r.ticker, r.quintile))
      = [(12, 0, some 1), (12, 1, some 1), (12, 2, some 1),
         (12, 3, some 3), (12, 4, some 3)]
    ∧ (∃ rec ∈ processAnalysis pricesGap, rec.quintile = some 3)
    ∧ ∀ rec ∈ processAnalysis pricesGap, rec.quintile ≠ some 2 := by
  with_unfolding_all decide

set_option maxHeartbeats 1000000 in
/-- C10, amended: at every emitted date all assigned bucket labels lie in
`{1,2,3}`, and whenever any label is assigned at all, label 1 is assigned to
some record (the minimum-signal survivor); but the used set need not be a
contiguous range — `{1,3}` occurs. -/
theorem c10_label_range {prices : List Row}
    (hd : (prices.map (fun r => r.date)).Pairwise (· < ·))
    {trow rrow : Row} (ht : trow ∈ (compute_trailing prices).dropLast)
    (hfn : findNext (compute_returns prices) trow.date = some rrow)
    (h3 : 3 ≤ (survivors trow rrow).length) :
    (∀ rec ∈ (processAnalysis prices).filter (fun r => decide (r.date = trow.date)),
      ∀ b, rec.quintile = some b → 1 ≤ b ∧ b ≤ 3)
    ∧ ((∃ rec ∈ (processAnalysis prices).filter
          (fun r => decide (r.date = trow.date)), rec.quintile.isSome) →
        ∃ rec ∈ (processAnalysis prices).filter
          (fun r => decide (r.date = trow.date)), rec.quintile = some 1) := by
  have hflt := processAnalysis_filter_date hd ht
  have hlen : ¬ (survivors trow rrow).length < 3 := by omega
  rw [hflt, perDate_eq_map hfn hlen]
  have hsne : (survivors trow rrow).map (fun z => z.2.1) ≠ [] := by
    intro hc
    rw [← List.length_eq_zero, List.length_map] at hc
    omega
  constructor
  · intro rec hrec b hb
    obtain ⟨x, hx, hrx⟩ := List.mem_map.mp hrec
    rw [← hrx] at hb
    have hb' : (qcutCode ((survivors trow rrow).map (fun z => z.2.1)) x.2.1).map (· + 1)
        = some b := hb
    obtain ⟨c, hc, hcb⟩ := Option.map_eq_some'.mp hb'
    have := qcutCode_le_two hc
    omega
  · rintro ⟨rec0, hrec0, hsome0⟩
    obtain ⟨x0, hx0, hrx0⟩ := List.mem_map.mp hrec0
    by_cases hconst : ∀ a ∈ (survivors trow rrow).map (fun z => z.2.1),
        ∀ a' ∈ (survivors trow rrow).map (fun z => z.2.1), a = a'
    · exfalso
      have hall : ∀ a ∈ (survivors trow rrow).map (fun z => z.2.1), a = x0.2.1 :=
        fun a ha => hconst a ha x0.2.1 (List.mem_map_of_mem _ hx0)
      have hnone := qcutCode_const hsne hall x0.2.1 (List.mem_map_of_mem _ hx0)
      rw [← hrx0] at hsome0
      have : (qcutCode ((survivors trow rrow).map (fun z => z.2.1)) x0.2.1).map (· + 1)
          = none := by rw [hnone]; rfl
      rw [show (recOfSurvivor trow.date ((survivors trow rrow).map (fun z => z.2.1))
          x0).quintile = (qcutCode ((survivors trow rrow).map (fun z => z.2.1))
          x0.2.1).map (· + 1) from rfl, this] at hsome0
      simp at hsome0
    · push_neg at hconst
      obtain ⟨u, hu, y, hy, hne⟩ := hconst
      have h2 : 2 ≤ (qcutBins ((survivors trow rrow).map (fun z => z.2.1))).length :=
        two_le_qcutBins_length hu hy hne
      have hmin := qcutCode_minOf h2
      have hminmem : minOf ((survivors trow rrow).map (fun z => z.2.1))
          ∈ (survivors trow rrow).map (fun z => z.2.1) := minOf_mem hsne
      obtain ⟨x1, hx1, hx1v⟩ := List.mem_map.mp hminmem
      have hx1e : x1.2.1 = minOf ((survivors trow rrow).map (fun z => z.2.1)) := hx1v
      refine ⟨_, List.mem_map_of_mem _ hx1, ?_⟩
      show (qcutCode ((survivors trow rrow).map (fun x => x.2.1)) x1.2.1).map (· + 1)
        = some 1
      rw [hx1e, hmin]
      rfl

/-- Witness for C10 at `pricesDistinct`: labels at date 12 are in `{1,2,3}`
and label 1 is assigned. -/
theorem c10_label_range_witness :
    (∀ rec ∈ (processAnalysis pricesDistinct).filter (fun r => decide (r.date
        = (⟨12, [some 1, some 2, some 3]⟩ : Row).date)),
      ∀ b, rec.quintile = some b → 1 ≤ b ∧ b ≤ 3)
    ∧ ((∃ rec ∈ (processAnalysis pricesDistinct).filter (fun r => decide (r.date
          = (⟨12, [some 1, some 2, some 3]⟩ : Row).date)), rec.quintile.isSome) →
        ∃ rec ∈ (processAnalysis pricesDistinct).filter (fun r => decide (r.date
          = (⟨12, [some 1, some 2, some 3]⟩ : Row).date)), rec.quintile = some 1) :=
  @c10_label_range pricesDistinct
    (by with_unfolding_all decide)
    ⟨12, [some 1, some 2, some 3]⟩
    ⟨13, [some 0, some 0, some 0]⟩
    (by with_unfolding_all decide)
    (by with_unfolding_all decide)
    (by with_unfolding_all decide)

/-! ## Claim C5 — behaviour on a degenerate (constant-signal) date -/

/-- C5, counterexample: on `pricesConstant` the date 12 has a degenerate
signal distribution (all three surviving signals equal). The claim says such
a date is skipped; instead the Ranking Engine emits one record per surviving
instrument at that date, with a missing bucket label — with
`duplicates='drop'` the quantile split does not raise at all. -/
theorem c5_counterexample :
    (∀ x ∈ survivors (⟨12, [some 1, some 1, some 1]⟩ : Row)
        ⟨13, [some 0, some 0, some 0]⟩,
      ∀ y ∈ survivors (⟨12, [some 1, some 1, some 1]⟩ : Row)
        ⟨13, [some 0, some 0, some 0]⟩, x.2.1 = y.2.1)
    ∧ (processAnalysis pricesConstant).length = 3
    ∧ ∀ rec ∈ processAnalysis pricesConstant,
        rec.date = 12 ∧ rec.quintile = none := by
  with_unfolding_all decide

/-- C5, amended: a date whose surviving signal distribution is degenerate
(all signals equal) is *not* skipped: it emits one record per surviving
instrument, each with a missing bucket label. Processing of the other dates
is unaffected — at every other trailing date the emitted records are exactly
that date's own per-date computation. -/
theorem c5_degenerate_date {prices : List Row}
    (hd : (prices.map (fun r => r.date)).Pairwise (· < ·))
    {trow rrow : Row} (ht : trow ∈ (compute_trailing prices).dropLast)
    (hfn : findNext (compute_returns prices) trow.date = some rrow)
    (h3 : 3 ≤ (survivors trow rrow).length)
    (hconst : ∀ x ∈ survivors trow rrow, ∀ y ∈ survivors trow rrow,
      x.2.1 = y.2.1) :
    ((processAnalysis prices).filter (fun r => decide (r.date = trow.date))).map
        (fun r => r.ticker) = (survivors trow rrow).map (fun x => x.1)
    ∧ (∀ rec ∈ (processAnalysis prices).filter (fun r => decide (r.date = trow.date)),
        rec.quintile = none)
    ∧ ∀ trow' ∈ (compute_trailing prices).dropLast,
        (processAnalysis prices).filter (fun r => decide (r.date = trow'.date))
          = perDate (compute_returns prices) trow' := by
  have hflt := processAnalysis_filter_date hd ht
  have hlen : ¬ (survivors trow rrow).length < 3 := by omega
  refine ⟨?_, ?_, fun trow' ht' => processAnalysis_filter_date hd ht'⟩
  · rw [hflt, perDate_eq_map hfn hlen, List.map_map]
    rfl
  · rw [hflt, perDate_eq_map hfn hlen]
    intro rec hrec
    obtain ⟨x, hx, hrx⟩ := List.mem_map.mp hrec
    have hsne : (survivors trow rrow).map (fun z => z.2.1) ≠ [] := by
      intro hc
      rw [← List.length_eq_zero, List.length_map] at hc
      omega
    have hall : ∀ a ∈ (survivors trow rrow).map (fun z => z.2.1), a = x.2.1 := by
      intro a ha
      obtain ⟨y, hy, rfl⟩ := List.mem_map.mp ha
      exact hconst y hy x hx
    have hnone := qcutCode_const hsne hall x.2.1 (List.mem_map_of_mem _ hx)
    rw [← hrx]
    show (qcutCode ((survivors trow rrow).map (fun z => z.2.1)) x.2.1).map (· + 1)
      = none
    rw [hnone]
    rfl

/-- Witness for C5 at `pricesConstant`: the degenerate date 12 emits records
for tickers `0, 1, 2`, all with missing buckets, and every date's block
equals its per-date computation. -/
theorem c5_degenerate_date_witness :
    ((processAnalysis pricesConstant).filter (fun r => decide (r.date
        = (⟨12, [some 1, some 1, some 1]⟩ : Row).date))).map (fun r => r.ticker)
      = (survivors ⟨12, [some 1, some 1, some 1]⟩
          ⟨13, [some 0, some 0, some 0]⟩).map (fun x => x.1)
    ∧ (∀ rec ∈ (processAnalysis pricesConstant).filter (fun r => decide (r.date
        = (⟨12, [some 1, some 1, some 1]⟩ : Row).date)), rec.quintile = none)
    ∧ ∀ trow' ∈ (compute_trailing pricesConstant).dropLast,
        (processAnalysis pricesConstant).filter
            (fun r => decide (r.date = trow'.date))
          = perDate (compute_returns pricesConstant) trow' :=
  @c5_degenerate_date pricesConstant
    (by with_unfolding_all decide)
    ⟨12, [some 1, some 1, some 1]⟩
    ⟨13, [some 0, some 0, some 0]⟩
    (by with_unfolding_all decide)
    (by with_unfolding_all decide)
    (by with_unfolding_all decide)
    (by with_unfolding_all decide)

/-! ## Structure of `pct_change` rows -/

theorem pctChange_getD {rows : List Row} {lag t : ℕ} (h : t < rows.length) :
    (pctChange lag rows).getD t ⟨0, []⟩ = pctRow rows lag t := by
  unfold pctChange
  rw [List.getD_eq_getElem?_getD,
    List.getElem?_eq_getElem (by simpa using h), List.getElem_map, List.getElem_range]
  rfl

theorem mem_pctChange_iff {rows : List Row} {lag : ℕ} {r : Row} :
    r ∈ pctChange lag rows ↔ ∃ t, t < rows.length ∧ r = pctRow rows lag t := by
  unfold pctChange
  rw [List.mem_map]
  constructor
  · rintro ⟨t, ht, rfl⟩
    exact ⟨t, List.mem_range.mp ht, rfl⟩
  · rintro ⟨t, ht, rfl⟩
    exact ⟨t, List.mem_range.mpr ht, rfl⟩

theorem pctRow_cells_getD (rows : List Row) (lag t j : ℕ) :
    (pctRow rows lag t).cells.getD j none
      = if j < (rows.getD t ⟨0, []⟩).cells.length then
          (if t < lag then none
           else pctCombine (cellAt rows t j) (cellAt rows (t - lag) j))
        else none := by
  unfold pctRow
  by_cases hj : j < (rows.getD t ⟨0, []⟩).cells.length
  · rw [if_pos hj, List.getD_eq_getElem?_getD,
      List.getElem?_eq_getElem (by simpa using hj), List.getElem_map, List.getElem_range]
    rfl
  · rw [if_neg hj]
    exact List.getD_eq_default _ _ (by simpa using hj)

theorem cellAt_out_of_range {rows : List Row} {t j : ℕ}
    (hj : ¬ j < (rows.getD t ⟨0, []⟩).cells.length) : cellAt rows t j = none := by
  unfold cellAt
  exact List.getD_eq_default _ _ (by omega)

/-! ## Claim C6 — month-over-month returns -/

/-- C6: `compute_returns` computes, cell by cell, `price[t]/price[t-1] - 1`
when both prices are present and a missing cell otherwise (row 0 is entirely
missing); the rows it returns are exactly the `pct_change` rows with at least
one present cell (so a row with only some cells missing is retained); in
particular the first price row's date never appears in the result. -/
theorem c6_returns_table {prices : List Row}
    (hd : (prices.map (fun r => r.date)).Pairwise (· < ·)) :
    (∀ t j, 1 ≤ t → t < prices.length →
      cellAt (pctChange 1 prices) t j
        = pctCombine (cellAt prices t j) (cellAt prices (t - 1) j))
    ∧ (∀ j, cellAt (pctChange 1 prices) 0 j = none)
    ∧ (∀ r, r ∈ compute_returns prices
        ↔ r ∈ pctChange 1 prices ∧ r.cells.any Option.isSome)
    ∧ (∀ h : prices ≠ [], ∀ r ∈ compute_returns prices,
        r.date ≠ (prices.head h).date) := by
  refine ⟨?_, ?_, ?_, ?_⟩
  · intro t j h1 hlen
    have hL : cellAt (pctChange 1 prices) t j = (pctRow prices 1 t).cells.getD j none := by
      unfold cellAt
      rw [pctChange_getD hlen]
    rw [hL, pctRow_cells_getD]
    by_cases hj : j < (prices.getD t ⟨0, []⟩).cells.length
    · rw [if_pos hj, if_neg (by omega : ¬ t < 1)]
    · rw [if_neg hj, cellAt_out_of_range hj]
      cases cellAt prices (t - 1) j <;> rfl
  · intro j
    by_cases hlen : 0 < prices.length
    · have hL : cellAt (pctChange 1 prices) 0 j
          = (pctRow prices 1 0).cells.getD j none := by
        unfold cellAt
        rw [pctChange_getD hlen]
      rw [hL, pctRow_cells_getD]
      by_cases hj : j < (prices.getD 0 ⟨0, []⟩).cells.length
      · rw [if_pos hj, if_pos (by omega : (0 : ℕ) < 1)]
      · rw [if_neg hj]
    · have hempty : pctChange 1 prices = [] := by
        unfold pctChange
        rw [show prices.length = 0 by omega]
        rfl
      unfold cellAt
      rw [hempty]
      rfl
  · intro r
    unfold compute_returns dropnaAll
    rw [List.mem_filter]
  · intro h r hr
    have hmem : r ∈ pctChange 1 prices ∧ r.cells.any Option.isSome = true := by
      unfold compute_returns dropnaAll at hr
      rw [List.mem_filter] at hr
      exact hr
    obtain ⟨t, ht, rfl⟩ := mem_pctChange_iff.mp hmem.1
    have ht0 : t ≠ 0 := by
      intro hc
      subst hc
      have hnone : ∀ c ∈ (pctRow prices 1 0).cells, c = none := by
        intro c hc'
        unfold pctRow at hc'
        obtain ⟨j, _, rfl⟩ := List.mem_map.mp hc'
        rw [if_pos (by omega : (0 : ℕ) < 1)]
      have hany := hmem.2
      rw [List.any_eq_true] at hany
      obtain ⟨c, hc', hcs⟩ := hany
      rw [hnone c hc'] at hcs
      simp at hcs
    have hdate : (pctRow prices 1 t).date = (prices.getD t ⟨0, []⟩).date := rfl
    rw [hdate]
    have hpair := List.pairwise_iff_getElem.mp hd
    have h0m : 0 < (prices.map (fun r => r.date)).length := by
      simpa using List.length_pos.mpr h
    have htm : t < (prices.map (fun r => r.date)).length := by simpa using ht
    have hlt : (prices.map (fun r => r.date))[0] < (prices.map (fun r => r.date))[t] := by
      apply hpair
      omega
    rw [List.getElem_map, List.getElem_map] at hlt
    have hhead : (prices.head h).date = prices[0].date := by
      cases prices with
      | nil => exact absurd rfl h
      | cons p rest => rfl
    rw [List.getD_eq_getElem?_getD, List.getElem?_eq_getElem ht, hhead,
      Option.getD_some]
    omega

/-- Witness for C6 at `pricesDistinct`. -/
theorem c6_returns_table_witness :
    (∀ t j, 1 ≤ t → t < pricesDistinct.length →
      cellAt (pctChange 1 pricesDistinct) t j
        = pctCombine (cellAt pricesDistinct t j) (cellAt pricesDistinct (t - 1) j))
    ∧ (∀ j, cellAt (pctChange 1 pricesDistinct) 0 j = none)
    ∧ (∀ r, r ∈ compute_returns pricesDistinct
        ↔ r ∈ pctChange 1 pricesDistinct ∧ r.cells.any Option.isSome)
    ∧ (∀ h : pricesDistinct ≠ [], ∀ r ∈ compute_returns pricesDistinct,
        r.date ≠ (pricesDistinct.head h).date) :=
  c6_returns_table (by with_unfolding_all decide)

/-! ## Claim C7 — instruments with few observations -/

theorem two_le_countP_of_two {α : Type} {p : α → Bool} :
    ∀ {l : List α} (i1 i2 : ℕ), i1 < i2 →
      ∀ (h1 : i1 < l.length) (h2 : i2 < l.length),
      p l[i1] = true → p l[i2] = true → 2 ≤ l.countP p := by
  intro l
  induction l with
  | nil => intro i1 i2 h12 h1 h2 _ _; simp at h2
  | cons a t ih =>
    intro i1 i2 h12 h1 h2 hp1 hp2
    obtain ⟨k, rfl⟩ : ∃ k, i2 = k + 1 := ⟨i2 - 1, by omega⟩
    have hk : k < t.length := by simpa using h2
    rw [List.getElem_cons_succ] at hp2
    cases i1 with
    | zero =>
      rw [List.getElem_cons_zero] at hp1
      rw [List.countP_cons_of_pos _ _ hp1]
      have hpos : 0 < t.countP p :=
        List.countP_pos_iff.mpr ⟨t[k], List.getElem_mem hk, hp2⟩
      omega
    | succ m =>
      rw [List.getElem_cons_succ] at hp1
      have hm : m < t.length := by omega
      have hih := ih m k (by omega) hm hk hp1 hp2
      rw [List.countP_cons]
      omega

/-- C7, counterexample: a column with only 2 present observations (dates 0
and 12) still yields a present trailing 12-month return at date 12, although
`2 < lag + 1 = 13`. -/
theorem c7_counterexample :
    presentCount pricesSparse 0 = 2 ∧ (2 : ℕ) < 13
    ∧ ∃ r ∈ compute_trailing pricesSparse, r.cells.getD 0 none ≠ none := by
  with_unfolding_all decide

/-- C7, amended: a trailing value for column `j` needs present prices at two
distinct rows (`t` and `t - 12`), so an instrument with fewer than 2 present
observations yields no trailing value anywhere; fewer than `lag + 1 = 13`
observations alone does not preclude a trailing value. -/
theorem c7_sparse_column {prices : List Row} {j : ℕ}
    (h : presentCount prices j < 2) :
    ∀ r ∈ compute_trailing prices, r.cells.getD j none = none := by
  intro r hr
  have hmem : r ∈ pctChange 12 prices := by
    unfold compute_trailing dropnaAll at hr
    exact (List.mem_filter.mp hr).1
  obtain ⟨t, ht, rfl⟩ := mem_pctChange_iff.mp hmem
  rw [pctRow_cells_getD]
  by_cases hj : j < (prices.getD t ⟨0, []⟩).cells.length
  · rw [if_pos hj]
    by_cases hlag : t < 12
    · rw [if_pos hlag]
    · rw [if_neg hlag]
      cases hc1 : cellAt prices t j with
      | none => rfl
      | some a =>
        cases hc2 : cellAt prices (t - 12) j with
        | none => rfl
        | some b =>
          exfalso
          have hlenm : (prices.map (fun r => r.cells.getD j none)).length
              = prices.length := List.length_map _ _
          have hM : ∀ u (hu : u < prices.length)
              (hum : u < (prices.map (fun r => r.cells.getD j none)).length),
              (prices.map (fun r => r.cells.getD j none))[u]
                = cellAt prices u j := by
            intro u hu hum
            rw [List.getElem_map]
            unfold cellAt
            rw [show prices.getD u ⟨0, []⟩ = prices[u] from by
              rw [List.getD_eq_getElem?_getD, List.getElem?_eq_getElem hu,
                Option.getD_some]]
          have hcount : 2 ≤ (prices.map (fun r => r.cells.getD j none)).countP
              (fun c => c.isSome) := by
            apply two_le_countP_of_two (t - 12) t (by omega) (by omega) (by omega)
            · rw [hM (t - 12) (by omega) (by omega), hc2]
              rfl
            · rw [hM t ht (by omega), hc1]
              rfl
          unfold presentCount at h
          omega
  · rw [if_neg hj]

/-- Witness for C7 on `pricesOneObs`: column 0 has one present observation,
and the trailing row at date 12 has a missing cell for it. -/
theorem c7_sparse_column_witness :
    (⟨12, [none, some 12]⟩ : Row).cells.getD 0 none = none :=
  @c7_sparse_column pricesOneObs 0 (by with_unfolding_all decide)
    ⟨12, [none, some 12]⟩ (by with_unfolding_all decide)

/-! ## Claim C4 — size of the transition table -/

theorem withNext_filterMap_length {l : List SRecord}
    (hq : ∀ r ∈ l, r.quintile.isSome) :
    ((withNext l).filterMap (fun p => p.2.map (fun b => TRecord.mk p.1 b))).length
      + ((l.map (fun r => r.ticker)).dedup).length = l.length := by
  induction l with
  | nil => rfl
  | cons r rest ih =>
    have hq' : ∀ s ∈ rest, s.quintile.isSome :=
      fun s hs => hq s (List.mem_cons_of_mem _ hs)
    have hih := ih hq'
    unfold withNext
    rw [List.filterMap_cons, List.map_cons]
    by_cases hex : ∃ s ∈ rest, s.ticker = r.ticker
    · obtain ⟨s0, hs0, hts0⟩ := hex
      cases hfind : rest.find? (fun s => decide (s.ticker = r.ticker)) with
      | none =>
        exfalso
        rw [List.find?_eq_none] at hfind
        exact hfind s0 hs0 (by simpa using hts0)
      | some s =>
        have hsmem : s ∈ rest := List.mem_of_find?_eq_some hfind
        obtain ⟨b, hb⟩ := Option.isSome_iff_exists.mp (hq' s hsmem)
        have hbind : (some s).bind (fun u => u.quintile) = some b := hb
        rw [hbind]
        have hmem : r.ticker ∈ rest.map (fun u => u.ticker) := by
          rw [← hts0]
          exact List.mem_map_of_mem _ hs0
        rw [List.dedup_cons_of_mem hmem]
        simp only [Option.map_some', List.length_cons]
        omega
    · cases hfind : rest.find? (fun s => decide (s.ticker = r.ticker)) with
      | some s =>
        exfalso
        have hsmem : s ∈ rest := List.mem_of_find?_eq_some hfind
        have hpred := List.find?_some hfind
        exact hex ⟨s, hsmem, by simpa using hpred⟩
      | none =>
        have hbind : (none : Option SRecord).bind (fun u => u.quintile) = none := rfl
        rw [hbind]
        have hmem : r.ticker ∉ rest.map (fun u => u.ticker) := by
          intro hc
          obtain ⟨s, hs, hts⟩ := List.mem_map.mp hc
          exact hex ⟨s, hs, hts⟩
        rw [List.dedup_cons_of_not_mem hmem]
        simp only [Option.map_none', List.length_cons]
        omega

/-- C4: the Transition Engine's output size equals the number of input
records minus the number of distinct instruments appearing in the input
(for record lists whose buckets are all present, as the data model
requires). -/
theorem c4_transition_count (df : List SRecord)
    (hq : ∀ r ∈ df, r.quintile.isSome) :
    (compute_transitions df).length = df.length - numDistinctTickers df := by
  have hperm : List.Perm (sortRecords df) df := List.perm_insertionSort _ df
  have hq' : ∀ r ∈ sortRecords df, r.quintile.isSome :=
    fun r hr => hq r (hperm.subset hr)
  have hmain := withNext_filterMap_length hq'
  have hlen : (sortRecords df).length = df.length := hperm.length_eq
  have hded : (((sortRecords df).map (fun r => r.ticker)).dedup).length
      = ((df.map (fun r => r.ticker)).dedup).length :=
    ((hperm.map (fun r => r.ticker)).dedup).length_eq
  unfold compute_transitions numDistinctTickers
  omega

/-- Witness for C4 on `dfSmall`: 3 records, 2 distinct tickers, 1 output
row. -/
theorem c4_transition_count_witness :
    (compute_transitions dfSmall).length = dfSmall.length - numDistinctTickers dfSmall :=
  c4_transition_count dfSmall (by with_unfolding_all decide)

/-! ## Claims C8 and C9 — the summary aggregator -/

theorem mem_bucketKeys {records : List SRecord} {b : ℕ} :
    b ∈ bucketKeys records ↔ ∃ r ∈ records, r.quintile = some b := by
  unfold bucketKeys
  rw [(List.perm_insertionSort _ _).mem_iff, List.mem_dedup, List.mem_filterMap]

theorem nodup_bucketKeys (records : List SRecord) : (bucketKeys records).Nodup :=
  ((List.perm_insertionSort _ _).nodup_iff).mpr (List.nodup_dedup _)

theorem bucketOutcomes_length_pos {records : List SRecord} {b : ℕ}
    (hb : b ∈ bucketKeys records) : 0 < (bucketOutcomes records b).length := by
  obtain ⟨r, hr, hrq⟩ := mem_bucketKeys.mp hb
  unfold bucketOutcomes
  rw [List.length_map]
  apply List.length_pos.mpr
  intro hc
  rw [List.filter_eq_nil_iff] at hc
  exact hc r hr (by simpa using hrq)

/-- C8: for every record list, the summary has exactly one row per distinct
present bucket value — a bucket occurs (once) among the summary keys iff some
record carries it, and never otherwise — and each row's value is the
arithmetic mean of `next_month_ret` over that bucket's (nonempty) group. -/
theorem c8_summary (records : List SRecord) :
    (∀ b : ℕ,
      ((((summarize records).map Prod.fst).count b = 1)
        ↔ ∃ r ∈ records, r.quintile = some b)
      ∧ ((((summarize records).map Prod.fst).count b = 0)
        ↔ ¬ ∃ r ∈ records, r.quintile = some b))
    ∧ ∀ p ∈ summarize records,
        0 < (bucketOutcomes records p.1).length
        ∧ p.2 * ((bucketOutcomes records p.1).length : ℚ)
            = (bucketOutcomes records p.1).sum := by
  have hfst : (summarize records).map Prod.fst = bucketKeys records := by
    unfold summarize
    rw [List.map_map]
    exact List.map_id _
  constructor
  · intro b
    rw [hfst]
    have hnd := nodup_bucketKeys records
    have hle1 : (bucketKeys records).count b ≤ 1 :=
      List.nodup_iff_count_le_one.mp hnd b
    constructor
    · constructor
      · intro h1
        rw [← mem_bucketKeys]
        have : 0 < (bucketKeys records).count b := by omega
        exact List.count_pos_iff.mp this
      · intro hex
        have hmem : b ∈ bucketKeys records := mem_bucketKeys.mpr hex
        have : 0 < (bucketKeys records).count b := List.count_pos_iff.mpr hmem
        omega
    · rw [List.count_eq_zero]
      exact not_congr mem_bucketKeys
  · intro p hp
    obtain ⟨b, hb, rfl⟩ := List.mem_map.mp hp
    refine ⟨bucketOutcomes_length_pos hb, ?_⟩
    show (bucketOutcomes records b).sum / ((bucketOutcomes records b).length : ℚ)
        * ((bucketOutcomes records b).length : ℚ) = (bucketOutcomes records b).sum
    apply div_mul_cancel₀
    exact_mod_cast (bucketOutcomes_length_pos hb).ne'

theorem sum_bucketOutcomes : ∀ (keys : List ℕ) (l : List SRecord),
    keys.Nodup → (∀ r ∈ l, ∃ b ∈ keys, r.quintile = some b) →
    (keys.map (fun b => (bucketOutcomes l b).sum)).sum
      = (l.map (fun r => r.next_month_ret)).sum := by
  intro keys
  induction keys with
  | nil =>
    intro l _ hcover
    cases l with
    | nil => rfl
    | cons r t =>
      obtain ⟨b, hb, _⟩ := hcover r (List.mem_cons_self _ _)
      simp at hb
  | cons k ks ih =>
    intro l hnd hcover
    rw [List.map_cons, List.sum_cons]
    have hperm : List.Perm (l.filter (fun r => decide (r.quintile = some k))
        ++ l.filter (fun r => !(decide (r.quintile = some k)))) l :=
      List.filter_append_perm _ l
    have hsum : (l.map (fun r => r.next_month_ret)).sum
        = (bucketOutcomes l k).sum
          + ((l.filter (fun r => !(decide (r.quintile = some k)))).map
              (fun r => r.next_month_ret)).sum := by
      have hps := (hperm.map (fun r => r.next_month_ret)).sum_eq
      rw [← hps, List.map_append, List.sum_append]
      rfl
    rw [hsum]
    have hkn : k ∉ ks := (List.nodup_cons.mp hnd).1
    have hrest : ∀ b ∈ ks, bucketOutcomes l b
        = bucketOutcomes (l.filter (fun r => !(decide (r.quintile = some k)))) b := by
      intro b hb
      unfold bucketOutcomes
      congr 1
      rw [List.filter_filter]
      apply List.filter_congr
      intro r _
      cases hqr : decide (r.quintile = some b) with
      | false => rfl
      | true =>
        have hrb : r.quintile = some b := of_decide_eq_true hqr
        have hbk : decide (r.quintile = some k) = false := by
          apply decide_eq_false
          intro hc
          rw [hrb] at hc
          exact hkn (by rwa [Option.some_inj.mp hc] at hb)
        rw [hbk]
        rfl
    have hcover' : ∀ r ∈ l.filter (fun r => !(decide (r.quintile = some k))),
        ∃ b ∈ ks, r.quintile = some b := by
      intro r hr
      obtain ⟨hrl, hnp⟩ := List.mem_filter.mp hr
      obtain ⟨b, hbk, hrb⟩ := hcover r hrl
      rcases List.mem_cons.mp hbk with rfl | hbks
      · exfalso
        rw [hrb] at hnp
        simp at hnp
      · exact ⟨b, hbks, hrb⟩
    have hks : (ks.map (fun b => (bucketOutcomes l b).sum)).sum
        = ((l.filter (fun r => !(decide (r.quintile = some k)))).map
            (fun r => r.next_month_ret)).sum := by
      rw [List.map_congr_left (fun b hb => by rw [hrest b hb])]
      exact ih _ (List.nodup_cons.mp hnd).2 hcover'
    rw [hks]

/-- C9: for every non-empty record list with all buckets present, the sum of
summary means weighted by bucket population, divided by the total record
count, equals the overall mean of `next_month_ret` — exactly, over rational
arithmetic. -/
theorem c9_weighted_mean (records : List SRecord) (_hne : records ≠ [])
    (hq : ∀ r ∈ records, r.quintile.isSome) :
    ((summarize records).map
        (fun p => p.2 * ((bucketOutcomes records p.1).length : ℚ))).sum
        / (records.length : ℚ)
      = ((records.map (fun r => r.next_month_ret)).sum) / (records.length : ℚ) := by
  have hnum : ((summarize records).map
      (fun p => p.2 * ((bucketOutcomes records p.1).length : ℚ))).sum
      = (records.map (fun r => r.next_month_ret)).sum := by
    unfold summarize
    rw [List.map_map]
    have hpt : ∀ b ∈ bucketKeys records,
        ((fun p : ℕ × ℚ => p.2 * ((bucketOutcomes records p.1).length : ℚ)) ∘
          (fun b => (b, (bucketOutcomes records b).sum
            / ((bucketOutcomes records b).length : ℚ)))) b
        = (bucketOutcomes records b).sum := by
      intro b hb
      show (bucketOutcomes records b).sum / ((bucketOutcomes records b).length : ℚ)
          * ((bucketOutcomes records b).length : ℚ) = _
      apply div_mul_cancel₀
      exact_mod_cast (bucketOutcomes_length_pos hb).ne'
    rw [List.map_congr_left hpt]
    apply sum_bucketOutcomes
    · exact nodup_bucketKeys records
    · intro r hr
      obtain ⟨b, hbq⟩ := Option.isSome_iff_exists.mp (hq r hr)
      exact ⟨b, mem_bucketKeys.mpr ⟨r, hr, hbq⟩, hbq⟩
  rw [hnum]

/-- Witness for C9 on `dfSmall`. -/
theorem c9_weighted_mean_witness :
    ((summarize dfSmall).map
        (fun p => p.2 * ((bucketOutcomes dfSmall p.1).length : ℚ))).sum
        / (dfSmall.length : ℚ)
      = ((dfSmall.map (fun r => r.next_month_ret)).sum) / (dfSmall.length : ℚ) :=
  c9_weighted_mean dfSmall (by with_unfolding_all decide)
    (by with_unfolding_all decide)

/-! ## Claim C3 — structure of the transition table -/

theorem mem_withNext_iff {l : List SRecord} {p : SRecord × Option ℕ} :
    p ∈ withNext l ↔ ∃ l1 l2, l = l1 ++ p.1 :: l2
      ∧ p.2 = (l2.find? (fun s => decide (s.ticker = p.1.ticker))).bind
          (fun s => s.quintile) := by
  induction l with
  | nil =>
    unfold withNext
    simp
  | cons r rest ih =>
    unfold withNext
    rw [List.mem_cons]
    constructor
    · rintro (rfl | hp)
      · exact ⟨[], rest, rfl, rfl⟩
      · obtain ⟨l1, l2, heq, hnq⟩ := ih.mp hp
        exact ⟨r :: l1, l2, by rw [heq]; rfl, hnq⟩
    · rintro ⟨l1, l2, heq, hnq⟩
      cases l1 with
      | nil =>
        rw [List.nil_append] at heq
        injection heq with h1 h2
        subst h1
        subst h2
        left
        cases p with
        | mk p1 p2 =>
          simp only at hnq
          rw [hnq]
      | cons a l1' =>
        rw [List.cons_append] at heq
        injection heq with h1 h2
        subst h1
        right
        exact ih.mpr ⟨l1', l2, h2, hnq⟩

theorem find?_first {α : Type} {p : α → Bool} :
    ∀ {l : List α} {a : α}, l.find? p = some a →
      ∃ l1 l2, l = l1 ++ a :: l2 ∧ ∀ x ∈ l1, ¬ p x := by
  intro l
  induction l with
  | nil => intro a h; cases h
  | cons x t ih =>
    intro a h
    rw [List.find?_cons] at h
    cases hx : p x with
    | true =>
      rw [hx] at h
      injection h with h1
      subst h1
      exact ⟨[], t, rfl, by intro y hy; simp at hy⟩
    | false =>
      rw [hx] at h
      obtain ⟨l1, l2, rfl, hl1⟩ := ih h
      refine ⟨x :: l1, l2, rfl, ?_⟩
      intro y hy
      rcases List.mem_cons.mp hy with rfl | hyt
      · simp [hx]
      · exact hl1 y hyt

theorem eq_of_mem_nodup_key {α β : Type} {key : α → β} {l : List α}
    (hnd : (l.map key).Nodup) {a b : α} (ha : a ∈ l) (hb : b ∈ l)
    (hk : key a = key b) : a = b := by
  induction l with
  | nil => simp at ha
  | cons x t ih =>
    rw [List.map_cons, List.nodup_cons] at hnd
    rcases List.mem_cons.mp ha with rfl | hat
    · rcases List.mem_cons.mp hb with rfl | hbt
      · rfl
      · exact absurd (by rw [hk]; exact List.mem_map_of_mem key hbt) hnd.1
    · rcases List.mem_cons.mp hb with rfl | hbt
      · exact absurd (by rw [← hk]; exact List.mem_map_of_mem key hat) hnd.1
      · exact ih hnd.2 hat hbt

theorem exists_min_date {L : List SRecord} (h : L ≠ []) :
    ∃ s ∈ L, ∀ u ∈ L, s.date ≤ u.date := by
  induction L with
  | nil => exact absurd rfl h
  | cons a t ih =>
    cases ht : t with
    | nil =>
      refine ⟨a, List.mem_cons_self _ _, ?_⟩
      intro u hu
      rcases List.mem_cons.mp hu with rfl | hu'
      · exact le_rfl
      · simp at hu'
    | cons b t' =>
      subst ht
      obtain ⟨s, hs, hmin⟩ := ih (by simp)
      by_cases hle : a.date ≤ s.date
      · refine ⟨a, List.mem_cons_self _ _, ?_⟩
        intro u hu
        rcases List.mem_cons.mp hu with rfl | hu'
        · exact le_rfl
        · exact hle.trans (hmin u hu')
      · refine ⟨s, List.mem_cons_of_mem _ hs, ?_⟩
        intro u hu
        rcases List.mem_cons.mp hu with rfl | hu'
        · omega
        · exact hmin u hu'

theorem later_mem_right {l1 l2 : List SRecord} {r u : SRecord}
    (hsort : List.Pairwise recLe (l1 ++ r :: l2))
    (hu : u ∈ l1 ++ r :: l2) (ht : u.ticker = r.ticker) (hd : r.date < u.date) :
    u ∈ l2 := by
  have pa := List.pairwise_append.mp hsort
  rcases List.mem_append.mp hu with hu1 | hu2
  · exfalso
    have hle : recLe u r := pa.2.2 u hu1 r (List.mem_cons_self _ _)
    rcases hle with hlt | ⟨_, hdle⟩
    · rw [ht] at hlt; omega
    · omega
  · rcases List.mem_cons.mp hu2 with rfl | hu3
    · omega
    · exact hu3

theorem key_r_not_mem_right {l1 l2 : List SRecord} {r : SRecord}
    (hnd : ((l1 ++ r :: l2).map (fun u => (u.ticker, u.date))).Nodup) :
    (r.ticker, r.date) ∉ l2.map (fun u => (u.ticker, u.date)) := by
  rw [List.map_append, List.map_cons] at hnd
  have h2 := (List.nodup_append.mp hnd).2.1
  exact (List.nodup_cons.mp h2).1

theorem find?_next_spec {l1 l2 : List SRecord} {r s : SRecord}
    (hsort : List.Pairwise recLe (l1 ++ r :: l2))
    (hnd : ((l1 ++ r :: l2).map (fun u => (u.ticker, u.date))).Nodup)
    (hfind : l2.find? (fun u => decide (u.ticker = r.ticker)) = some s) :
    s ∈ l2 ∧ s.ticker = r.ticker ∧ r.date < s.date
      ∧ ∀ u ∈ l1 ++ r :: l2, u.ticker = r.ticker → r.date < u.date
          → s.date ≤ u.date := by
  have hs2 : s ∈ l2 := List.mem_of_find?_eq_some hfind
  have hst : s.ticker = r.ticker := by
    have hps := List.find?_some hfind
    simpa using hps
  have pa := List.pairwise_append.mp hsort
  have hr2 : ∀ b ∈ l2, recLe r b :=
    fun b hb => List.rel_of_pairwise_cons pa.2.1 hb
  have hrsd : r.date ≤ s.date := by
    rcases hr2 s hs2 with hlt | ⟨_, hdle⟩
    · rw [hst] at hlt; omega
    · exact hdle
  have hne : r.date ≠ s.date := by
    intro hc
    apply key_r_not_mem_right hnd
    have : (s.ticker, s.date) ∈ l2.map (fun u => (u.ticker, u.date)) :=
      List.mem_map_of_mem _ hs2
    rw [hst, ← hc] at this
    exact this
  refine ⟨hs2, hst, by omega, ?_⟩
  intro u hu hut hud
  have hu2 : u ∈ l2 := later_mem_right hsort hu hut hud
  obtain ⟨m1, m2, hm, hm1⟩ := find?_first hfind
  rw [hm] at hu2
  rcases List.mem_append.mp hu2 with hum1 | hum2
  · exact absurd (by simpa using hut) (hm1 u hum1)
  · rcases List.mem_cons.mp hum2 with rfl | hum3
    · exact le_rfl
    · have hp2 : List.Pairwise recLe l2 := (List.pairwise_cons.mp pa.2.1).2
      rw [hm] at hp2
      have hsu : recLe s u :=
        List.rel_of_pairwise_cons (List.pairwise_append.mp hp2).2.1 hum3
      rcases hsu with hlt | ⟨_, hdle⟩
      · rw [hst, ← hut] at hlt; omega
      · exact hdle

/-- C3: for every record list with present buckets and distinct
`(instrument, date)` keys, `compute_transitions` is characterised by:
(1) a transition row appears iff its base record is an input record and its
`next_quintile` is the bucket of the date-earliest strictly-later record of
the same instrument; (2) an input record contributes an output row iff a
strictly-later record of the same instrument exists (so exactly the
chronologically last record of each instrument's group is omitted); and
(3) an instrument with only one record contributes no output row. -/
theorem c3_transitions (df : List SRecord)
    (hq : ∀ r ∈ df, r.quintile.isSome)
    (hkey : (df.map (fun r => (r.ticker, r.date))).Nodup) :
    (∀ rec : TRecord, rec ∈ compute_transitions df ↔
      (rec.toSRecord ∈ df
        ∧ ∃ s ∈ df, s.ticker = rec.ticker ∧ rec.date < s.date
            ∧ s.quintile = some rec.next_quintile
            ∧ ∀ u ∈ df, u.ticker = rec.ticker → rec.date < u.date → s.date ≤ u.date))
    ∧ (∀ r ∈ df, (∃ rec ∈ compute_transitions df, rec.toSRecord = r)
        ↔ ∃ s ∈ df, s.ticker = r.ticker ∧ r.date < s.date)
    ∧ (∀ t : ℕ, (df.filter (fun r => decide (r.ticker = t))).length = 1 →
        ∀ rec ∈ compute_transitions df, rec.ticker ≠ t) := by
  have hperm : List.Perm (sortRecords df) df := List.perm_insertionSort _ df
  have hsort : List.Pairwise recLe (sortRecords df) := List.sorted_insertionSort _ df
  have hndl : ((sortRecords df).map (fun r => (r.ticker, r.date))).Nodup :=
    ((hperm.map _).nodup_iff).mpr hkey
  have hmem_iff : ∀ rec : TRecord, rec ∈ compute_transitions df ↔
      ∃ l1 l2, sortRecords df = l1 ++ rec.toSRecord :: l2
        ∧ (l2.find? (fun s => decide (s.ticker = rec.ticker))).bind
            (fun s => s.quintile) = some rec.next_quintile := by
    intro rec
    unfold compute_transitions
    rw [List.mem_filterMap]
    constructor
    · rintro ⟨p, hp, hf⟩
      obtain ⟨b, hb, hmk⟩ := Option.map_eq_some'.mp hf
      obtain ⟨l1, l2, heq, hnq⟩ := mem_withNext_iff.mp hp
      cases rec with
      | mk rs nq =>
        injection hmk with h1 h2
        subst h1
        subst h2
        show ∃ l1 l2, sortRecords df = l1 ++ p.1 :: l2
          ∧ (l2.find? (fun s => decide (s.ticker = p.1.ticker))).bind
              (fun s => s.quintile) = some b
        refine ⟨l1, l2, heq, ?_⟩
        rw [← hnq]
        exact hb
    · rintro ⟨l1, l2, heq, hbind⟩
      refine ⟨(rec.toSRecord, some rec.next_quintile), ?_, ?_⟩
      · exact mem_withNext_iff.mpr ⟨l1, l2, heq, hbind.symm⟩
      · rfl
  have hchar : ∀ rec : TRecord, rec ∈ compute_transitions df ↔
      (rec.toSRecord ∈ df
        ∧ ∃ s ∈ df, s.ticker = rec.ticker ∧ rec.date < s.date
            ∧ s.quintile = some rec.next_quintile
            ∧ ∀ u ∈ df, u.ticker = rec.ticker → rec.date < u.date
                → s.date ≤ u.date) := by
    intro rec
    rw [hmem_iff rec]
    constructor
    · rintro ⟨l1, l2, heq, hbind⟩
      obtain ⟨s, hfind, hsq⟩ := Option.bind_eq_some.mp hbind
      have hspec := find?_next_spec (heq ▸ hsort) (heq ▸ hndl) hfind
      have hrl : rec.toSRecord ∈ sortRecords df := by
        rw [heq]
        exact List.mem_append.mpr (Or.inr (List.mem_cons_self _ _))
      have hsl : s ∈ sortRecords df := by
        rw [heq]
        exact List.mem_append.mpr (Or.inr (List.mem_cons_of_mem _ hspec.1))
      refine ⟨hperm.subset hrl, s, hperm.subset hsl,
        hspec.2.1, hspec.2.2.1, hsq, ?_⟩
      intro u hu hut hud
      apply hspec.2.2.2 u _ hut hud
      rw [← heq]
      exact hperm.mem_iff.mpr hu
    · rintro ⟨hrdf, s, hsdf, hst, hsd, hsq, hmin⟩
      have hrl : rec.toSRecord ∈ sortRecords df := hperm.mem_iff.mpr hrdf
      obtain ⟨l1, l2, heq⟩ := List.append_of_mem hrl
      refine ⟨l1, l2, heq, ?_⟩
      have hsl : s ∈ sortRecords df := hperm.mem_iff.mpr hsdf
      have hsl2 : s ∈ l2 :=
        later_mem_right (heq ▸ hsort) (heq ▸ hsl) hst hsd
      cases hfind : l2.find? (fun u => decide (u.ticker = rec.ticker)) with
      | none =>
        exfalso
        rw [List.find?_eq_none] at hfind
        exact hfind s hsl2 (by simpa using hst)
      | some s' =>
        have hspec := find?_next_spec (heq ▸ hsort) (heq ▸ hndl) hfind
        have hs'l : s' ∈ sortRecords df := by
          rw [heq]
          exact List.mem_append.mpr (Or.inr (List.mem_cons_of_mem _ hspec.1))
        have h1 : s.date ≤ s'.date :=
          hmin s' (hperm.subset hs'l) hspec.2.1 hspec.2.2.1
        have h2 : s'.date ≤ s.date := by
          apply hspec.2.2.2 s _ hst hsd
          exact List.mem_append.mpr (Or.inr (List.mem_cons_of_mem _ hsl2))
        have hkeq : s' = s := by
          apply eq_of_mem_nodup_key hndl hs'l hsl
          have ht : s'.ticker = s.ticker := by rw [hspec.2.1, hst]
          have hdt : s'.date = s.date := le_antisymm h2 h1
          rw [ht, hdt]
        show s'.quintile = some rec.next_quintile
        rw [hkeq]
        exact hsq
  refine ⟨hchar, ?_, ?_⟩
  · intro r hrdf
    constructor
    · rintro ⟨rec, hrec, hrecr⟩
      obtain ⟨_, s, hsdf, hst, hsd, _, _⟩ := (hchar rec).mp hrec
      refine ⟨s, hsdf, ?_, ?_⟩
      · rw [← hrecr]
        exact hst
      · rw [← hrecr]
        exact hsd
    · rintro ⟨s0, hs0, ht0, hd0⟩
      have hs0L : s0 ∈ df.filter
          (fun u => decide (u.ticker = r.ticker) && decide (r.date < u.date)) := by
        rw [List.mem_filter]
        exact ⟨hs0, by simp [ht0, hd0]⟩
      obtain ⟨s, hsL, hmin⟩ := exists_min_date (List.ne_nil_of_mem hs0L)
      obtain ⟨hsdf, hpred⟩ := List.mem_filter.mp hsL
      have hpred' : s.ticker = r.ticker ∧ r.date < s.date := by
        simpa using hpred
      obtain ⟨b, hb⟩ := Option.isSome_iff_exists.mp (hq s hsdf)
      refine ⟨TRecord.mk r b, (hchar (TRecord.mk r b)).mpr
        ⟨hrdf, s, hsdf, hpred'.1, hpred'.2, hb, ?_⟩, rfl⟩
      intro u hu hut hud
      apply hmin u
      rw [List.mem_filter]
      exact ⟨hu, by simp [hut, hud]⟩
  · intro t hlen rec hrec hrt
    obtain ⟨hrdf, s, hsdf, hst, hsd, _, _⟩ := (hchar rec).mp hrec
    have h1 : rec.toSRecord ∈ df.filter (fun u => decide (u.ticker = t)) := by
      rw [List.mem_filter]
      refine ⟨hrdf, by simp [show rec.toSRecord.ticker = t from hrt]⟩
    have h2 : s ∈ df.filter (fun u => decide (u.ticker = t)) := by
      rw [List.mem_filter]
      refine ⟨hsdf, by simp [hst, show rec.toSRecord.ticker = t from hrt]⟩
    have hne : rec.toSRecord ≠ s := by
      intro hc
      have : rec.toSRecord.date < s.date := hsd
      rw [hc] at this
      omega
    have := two_le_length_of_ne_mem h1 h2 hne
    omega

/-- Witness for C3 on `dfSmall` (ticker 0 has records at dates 10 and 20,
ticker 1 only at date 10). -/
theorem c3_transitions_witness :
    (∀ rec : TRecord, rec ∈ compute_transitions dfSmall ↔
      (rec.toSRecord ∈ dfSmall
        ∧ ∃ s ∈ dfSmall, s.ticker = rec.ticker ∧ rec.date < s.date
            ∧ s.quintile = some rec.next_quintile
            ∧ ∀ u ∈ dfSmall, u.ticker = rec.ticker → rec.date < u.date
                → s.date ≤ u.date))
    ∧ (∀ r ∈ dfSmall, (∃ rec ∈ compute_transitions dfSmall, rec.toSRecord = r)
        ↔ ∃ s ∈ dfSmall, s.ticker = r.ticker ∧ r.date < s.date)
    ∧ (∀ t : ℕ, (dfSmall.filter (fun r => decide (r.ticker = t))).length = 1 →
        ∀ rec ∈ compute_transitions dfSmall, rec.ticker ≠ t) :=
  c3_transitions dfSmall (by with_unfolding_all decide)
    (by with_unfolding_all decide)

-- Sanity checks on concrete data (retained as compiled examples).
example : qcutLabels [1, 2, 3] = [some 1, some 2, some 3] := by
  with_unfolding_all decide
example : qcutLabels [5, 5, 5] = [none, none, none] := by
  with_unfolding_all decide
example : qcutLabels [0, 6, 6, 9, 12] = [some 1, some 1, some 1, some 3, some 3] := by
  with_unfolding_all decide
